import Mathlib

/-!
Shallow embedding of the incremental substring matcher (src/src/matcher.h).

The C++ engine scans a growing symbol buffer with a Rabin-Karp style
rolling hash, maintains a hash index (`head`) and a chain table (`prev`),
and emits an edit script of `Literal` and `Copy` instructions.

Modelling conventions:
* `Symbol` is modelled as `Nat` (byte values); `Size` is `uint32_t`, so
  values stored into instructions are truncated `% 2^32`; `size_t`
  arithmetic wraps `% 2^64` (`sub64` below models `size_t` subtraction).
* `std::vector` reads are modelled with `List.getD` (default 0), writes
  with `List.set`; `resize` zero-fills, modelled in `Matcher.append`.
* the match list is kept in reverse order in the field `rmatches`
  (most recent instruction first), so `push_back` is cons, `back()` is
  `head?` and mutation of `back()` replaces the head; `Matcher.matches`
  returns the list in emission order.
* loops become fuel-indexed recursions; the chain walk recurses on the
  strictly decreasing chain offset, exactly the walk-termination rule of
  the source.
-/

set_option maxRecDepth 16384

/-- Wrapping size_t subtraction: `(a - b) mod 2^64` for natural `a`, `b`. -/
def sub64 (a b : Nat) : Nat := (a + (2 ^ 64 - b % 2 ^ 64)) % 2 ^ 64

/-- The table of deltas from `prime_lt_pow2`: smallest prime below `2^n`
is `2^n - k[n]`. -/
def primeDelta (n : Nat) : Nat :=
  [0, 0, 1, 1, 3, 1, 3, 1, 5, 3, 3, 9, 3, 1, 3, 19,
   15, 1, 5, 1, 3, 9, 3, 15, 3, 39, 5, 39, 57, 3, 35, 1,
   5, 9, 41, 31, 5, 25, 45, 7, 87, 21, 11, 57, 17, 55, 21, 115,
   59, 81, 27, 129, 47, 111, 33, 55, 5, 13, 27, 55, 93, 1, 57, 25].getD n 0

/-- smallest prime less than a power of 2: `(1 << n) - k[n]`. -/
def prime_lt_pow2 (n : Nat) : Nat := 2 ^ n - primeDelta n

/-- enum used to tag match type. -/
inductive MatchType where
  | Literal : MatchType
  | Copy : MatchType
deriving DecidableEq, Repr

/-- structure used to return matches (`Match<Size>` with `Size = uint32_t`). -/
structure Match where
  type : MatchType
  offset : Nat
  length : Nat
deriving DecidableEq, Repr

/-- state of the incremental matcher (`struct Matcher<Symbol, Size>` with
`Symbol = char`, `Size = uint32_t`); the configuration fields mirror the
members `hash_bits`, `min_match`, `max_match`. -/
structure Matcher where
  hash_bits : Nat
  min_match : Nat
  max_match : Nat
  data : List Nat
  prev : List Nat
  head : List Nat
  mark : Nat
  rmatches : List Match
deriving DecidableEq, Repr

/-- the prime modulus `hash_prime` as computed by `resize`. -/
def Matcher.hash_prime (m : Matcher) : Nat := prime_lt_pow2 m.hash_bits

/-- construct matcher instance: zeroed tables, `hash_size = 1 << hash_bits`,
default `min_match = 3`, `max_match = 32`. -/
def Matcher.mkInit (hash_bits : Nat) : Matcher :=
  { hash_bits := hash_bits, min_match := 3, max_match := 32,
    data := [], prev := [], head := List.replicate (2 ^ hash_bits) 0,
    mark := 0, rmatches := [] }

/-- matcher with explicitly chosen `min_match` / `max_match` fields
(the members are public in the source and default to 3 / 32). -/
def Matcher.mkCfg (hash_bits min_match max_match : Nat) : Matcher :=
  { Matcher.mkInit hash_bits with min_match := min_match, max_match := max_match }

/-- the match list in emission order. -/
def Matcher.matches (m : Matcher) : List Match := m.rmatches.reverse

/-- append input data into the internal buffer: `data.insert(end, ...)`
followed by `prev.resize(data.size())` (zero-filling). -/
def Matcher.append (m : Matcher) (xs : List Nat) : Matcher :=
  let d := m.data ++ xs
  { m with data := d,
           prev := (m.prev ++ List.replicate (d.length - m.prev.length) 0).take d.length }

/-- append with the source's precondition
`assert(data.size() + distance < numeric_limits<Size>::max())`:
the whole append is refused (assert aborts) when the new total size would
reach `2^32 - 1`. -/
def Matcher.appendChecked (m : Matcher) (xs : List Nat) : Option Matcher :=
  if m.data.length + xs.length < 2 ^ 32 - 1 then some (m.append xs) else none

/-- incrementally add a symbol to a hash value: `(hval << 5) ^ symbol`
on `Size = uint32_t`. -/
def hash_add (hval symbol : Nat) : Nat := ((hval * 32) % 2 ^ 32) ^^^ (symbol % 2 ^ 32)

/-- translate a hash value to a hash table slot: `hval % hash_prime`. -/
def Matcher.hash_slot (m : Matcher) (hval : Nat) : Nat := hval % m.hash_prime

/-- the verification loop of `check_match`: compare
`data[last - pos + i]` (size_t index arithmetic, wrapping) against
`data[mark + i]` while `i < limit`; fuel is `limit - i`. -/
def matchRun (data : List Nat) (base mrk : Nat) : Nat → Nat → Nat
  | 0, i => i
  | fuel + 1, i =>
    if data.getD ((base + i) % 2 ^ 64) 0 = data.getD (mrk + i) 0 then
      matchRun data base mrk fuel (i + 1)
    else i

/-- check whether a hashtable hit matches and return its total length;
the guard `last > mark + pos - min_match` (size_t arithmetic) excludes
matches later in the string, then symbols are compared up to
`limit = data.size() - mark`. -/
def Matcher.check_match (m : Matcher) (last pos : Nat) : Nat :=
  if last > sub64 (m.mark + pos) m.min_match then 0
  else matchRun m.data (sub64 last pos) m.mark (sub64 m.data.length m.mark) 0

/-- the best-candidate update of the chain walk:
`match_len >= min_match && (match_len > len || (match_len == len && last < best && last > pos))`
replaces `(best, len)` by `(last - pos, match_len)`. -/
def bestUpdate (min_match best len pos last ml : Nat) : Nat × Nat :=
  if min_match ≤ ml ∧ (len < ml ∨ (ml = len ∧ last < best ∧ pos < last)) then
    (sub64 last pos, ml)
  else (best, len)

/-- the body of the chain walk `while (last) { ... }` of `decompose`:
verify each hit, keep the best, and follow `prev[last]` only while
`match_len > pos && prev[last] < last` (else stop with sentinel 0).
The fuel argument only makes the recursion structural; the walked offset
strictly decreases, so any fuel at least `last` computes the walk
(`walkLoop_irrel` below). -/
def Matcher.walkLoop (m : Matcher) (pos : Nat) : Nat → Nat → Nat → Nat → Nat × Nat
  | 0, best, len, _ => (best, len)
  | fuel + 1, best, len, last =>
    if last = 0 then (best, len)
    else
      let ml := m.check_match last pos
      let bl := bestUpdate m.min_match best len pos last ml
      Matcher.walkLoop m pos fuel bl.1 bl.2
        (if pos < ml ∧ m.prev.getD last 0 < last then m.prev.getD last 0 else 0)

/-- the chain walk, started with fuel `last` — exactly enough because
every followed link is strictly smaller than the previous offset (the
walk-termination rule of the source). -/
def Matcher.chainWalk (m : Matcher) (pos best len last : Nat) : Nat × Nat :=
  Matcher.walkLoop m pos last best len last

/-- the scan loop `for (pos = 0; pos < limit; pos++)` of `decompose`:
roll the hash, update chain table and hash index, and past
`min_match - 1` run the chain walk; bail out early when
`len > pos + 1`; fuel is `limit - pos`. -/
def Matcher.scanLoop : Nat → Matcher → Nat → Nat → Nat → Nat → Matcher × Nat × Nat
  | 0, m, _, _, best, len => (m, best, len)
  | fuel + 1, m, hval, pos, best, len =>
    let hval2 := hash_add hval (m.data.getD (m.mark + pos) 0)
    let hpos := m.hash_slot hval2
    let last := m.head.getD hpos 0
    let m2 := { m with prev := m.prev.set (m.mark + pos) last,
                       head := m.head.set hpos (m.mark + pos) }
    if pos < sub64 m.min_match 1 then
      Matcher.scanLoop fuel m2 hval2 (pos + 1) best len
    else
      let bl := Matcher.chainWalk m2 pos best len last
      if pos + 1 < bl.2 then (m2, bl.1, bl.2)
      else Matcher.scanLoop fuel m2 hval2 (pos + 1) bl.1 bl.2

/-- the emission block of `decompose`: a `Copy` when `len >= min_match`
(overwriting a zero-length `back()`), else a `Literal` of one symbol
(extending a `back()` whose `offset + length == mark`). Instruction
fields are stored through `Size(...)`, i.e. truncated `% 2^32`. -/
def Matcher.emit (m : Matcher) (best len : Nat) : Matcher :=
  if m.min_match ≤ len then
    { m with mark := m.mark + len,
             rmatches :=
               match m.rmatches with
               | [] => [⟨MatchType.Copy, best % 2 ^ 32, len % 2 ^ 32⟩]
               | b :: t =>
                 if 0 < b.length then ⟨MatchType.Copy, best % 2 ^ 32, len % 2 ^ 32⟩ :: b :: t
                 else ⟨MatchType.Copy, best % 2 ^ 32, len % 2 ^ 32⟩ :: t }
  else
    { m with mark := m.mark + 1,
             rmatches :=
               match m.rmatches with
               | [] => [⟨MatchType.Literal, m.mark % 2 ^ 32, 1⟩]
               | b :: t =>
                 if (b.offset + b.length) % 2 ^ 32 ≠ m.mark then
                   ⟨MatchType.Literal, m.mark % 2 ^ 32, 1⟩ :: b :: t
                 else { b with length := (b.length + 1) % 2 ^ 32 } :: t }

/-- one iteration of the outer `while (mark < data.size())` loop of
`decompose`: scan up to `limit = min(data.size() - mark, max_match)`
positions, then emit the best match or a literal. -/
def Matcher.decomposeStep (m : Matcher) : Matcher :=
  let limit := min (sub64 m.data.length m.mark) m.max_match
  let s := Matcher.scanLoop limit m 0 0 0 0
  Matcher.emit s.1 s.2.1 s.2.2

/-- the outer loop of `decompose`, fuel-indexed. -/
def Matcher.decomposeLoop : Nat → Matcher → Matcher
  | 0, m => m
  | fuel + 1, m =>
    if m.mark < m.data.length then Matcher.decomposeLoop fuel m.decomposeStep else m

/-- incrementally run the match algorithm on new data past `mark`;
when `partition && mark < data.size()` a zero-length `Literal`
placeholder is pushed first. The fuel `data.size() - mark` suffices
because every iteration advances `mark` (proved below). -/
def Matcher.decompose (m : Matcher) (partition : Bool) : Matcher :=
  let m1 :=
    if partition ∧ m.mark < m.data.length then
      { m with rmatches := ⟨MatchType.Literal, m.mark % 2 ^ 32, 0⟩ :: m.rmatches }
    else m
  Matcher.decomposeLoop (m1.data.length - m1.mark) m1

/-- a fresh default matcher run on a single batch of input. -/
def runMatcher (S : List Nat) : Matcher := ((Matcher.mkInit 15).append S).decompose true

/-- a matcher with chosen configuration run on a single batch of input. -/
def runMatcherCfg (hash_bits min_match max_match : Nat) (S : List Nat) : Matcher :=
  ((Matcher.mkCfg hash_bits min_match max_match).append S).decompose true

/-- externally driven operations: append a batch or run `decompose`. -/
inductive MOp where
  | app : List Nat → MOp
  | dec : MOp

/-- apply one operation; a failed append (assert) aborts the run. -/
def applyOp (m : Matcher) : MOp → Option Matcher
  | MOp.app xs => m.appendChecked xs
  | MOp.dec => some (m.decompose true)

/-- run a list of operations from a state. -/
def runOpsFrom (m : Matcher) : List MOp → Option Matcher
  | [] => some m
  | op :: rest =>
    match applyOp m op with
    | none => none
    | some m2 => runOpsFrom m2 rest

/-- run a list of operations from a fresh default matcher. -/
def runOps (ops : List MOp) : Option Matcher := runOpsFrom (Matcher.mkInit 15) ops

/-- the match list of an optional matcher state (empty when aborted). -/
def matchesO : Option Matcher → List Match
  | none => []
  | some m => m.matches

/-- sum of the instruction lengths of a match list. -/
def sumLen : List Match → Nat
  | [] => 0
  | a :: t => a.length + sumLen t

/-- Modelled from the spec: replay of one `Copy` instruction, reading the
already-produced output one symbol at a time (`length` symbols starting
at `offset`); fails when a referenced symbol has not been produced yet. -/
def replayCopy : List Nat → Nat → Nat → Option (List Nat)
  | out, _, 0 => some out
  | out, off, k + 1 =>
    if off < out.length then replayCopy (out ++ [out.getD off 0]) (off + 1) k
    else none

/-- Modelled from the spec: replay one instruction against the produced
output; `Literal` emits its referenced buffer range verbatim, `Copy`
copies from the already-produced output. -/
def replayStep (data out : List Nat) (ins : Match) : Option (List Nat) :=
  match ins.type with
  | MatchType.Literal => some (out ++ (data.drop ins.offset).take ins.length)
  | MatchType.Copy => replayCopy out ins.offset ins.length

/-- Modelled from the spec: replay a match list in order. -/
def decodeList (data : List Nat) : List Match → List Nat → Option (List Nat)
  | [], out => some out
  | i :: rest, out =>
    match replayStep data out i with
    | none => none
    | some out2 => decodeList data rest out2

/-- Modelled from the spec: the decoding contract — replaying the whole
match list from an empty output. -/
def decode (data : List Nat) (l : List Match) : Option (List Nat) := decodeList data l []

/-- validity of copies against the logical output stream: each `Copy`
range must lie entirely inside the output produced before it. -/
def copyValidFrom : Nat → List Match → Bool
  | _, [] => true
  | p, i :: rest =>
    (if i.type = MatchType.Copy then decide (i.offset + i.length ≤ p) else true) &&
      copyValidFrom (p + i.length) rest

/-- two instructions are contiguous literals: both `Literal` and the
second range starts exactly where the first ends. -/
def contigLits (a b : Match) : Prop :=
  a.type = MatchType.Literal ∧ b.type = MatchType.Literal ∧ a.offset + a.length = b.offset

instance : DecidablePred fun p : Match × Match => contigLits p.1 p.2 := by
  intro p; unfold contigLits; infer_instance

instance (a b : Match) : Decidable (contigLits a b) := by
  unfold contigLits; infer_instance

/-- literal instructions start exactly at their logical output position
(position of the head of a reversed match list is the summed length of
its tail). -/
def litStarts : List Match → Prop
  | [] => True
  | a :: t => (a.type = MatchType.Literal → a.offset = sumLen t) ∧ litStarts t

/-- forward-order statement of `litStarts`: scanning the match list,
each literal starts at the running output position. -/
def startsOk : Nat → List Match → Prop
  | _, [] => True
  | p, a :: t => (a.type = MatchType.Literal → a.offset = p) ∧ startsOk (p + a.length) t

/-- all instructions of a match list have positive length. -/
def lenOKList (l : List Match) : Prop := ∀ i ∈ l, 1 ≤ i.length

/-- all `Copy` instructions of a match list have length at least `mm`. -/
def copyMinList (mm : Nat) (l : List Match) : Prop :=
  ∀ i ∈ l, i.type = MatchType.Copy → mm ≤ i.length

/-- all `Literal` instructions of a match list end at or before the cursor. -/
def litEndList (mk : Nat) (l : List Match) : Prop :=
  ∀ i ∈ l, i.type = MatchType.Literal → i.offset + i.length ≤ mk

/-- no adjacent pair of a reversed (most-recent-first) match list is a
contiguous pair of literals in emission order. -/
def chainList (l : List Match) : Prop :=
  List.Chain' (fun a b => ¬ contigLits b a) l

/-- the head of a reversed match list is the zero-length partition
placeholder at the cursor and the rest have positive lengths. -/
def phHead (mk : Nat) (l : List Match) : Prop :=
  l.head? = some ⟨MatchType.Literal, mk % 2 ^ 32, 0⟩ ∧ lenOKList l.tail

/-!  ## Arithmetic and loop lemmas  -/

theorem sub64_eq_mod (a b : Nat) (h : b ≤ a) : sub64 a b = (a - b) % 2 ^ 64 := by
  unfold sub64
  have hb : b % 2 ^ 64 ≤ b := Nat.mod_le _ _
  have h2 : b - b % 2 ^ 64 = 2 ^ 64 * (b / 2 ^ 64) := by
    conv_lhs => rw [← Nat.div_add_mod b (2 ^ 64)]
    omega
  have h3 : a + (2 ^ 64 - b % 2 ^ 64) = (a - b) + 2 ^ 64 * (1 + b / 2 ^ 64) := by
    have := Nat.div_add_mod b (2 ^ 64)
    omega
  rw [h3, Nat.add_mul_mod_self_left]

theorem sub64_le (a b : Nat) (h : b ≤ a) : sub64 a b ≤ a - b := by
  rw [sub64_eq_mod a b h]
  exact Nat.mod_le _ _

theorem matchRun_le (data : List Nat) (base mrk : Nat) :
    ∀ fuel i, matchRun data base mrk fuel i ≤ i + fuel := by
  intro fuel
  induction fuel with
  | zero => intro i; simp [matchRun]
  | succ f ih =>
    intro i
    unfold matchRun
    split
    · have := ih (i + 1); omega
    · omega

theorem check_match_le (m : Matcher) (last pos : Nat) :
    m.check_match last pos ≤ sub64 m.data.length m.mark := by
  unfold Matcher.check_match
  split
  · exact Nat.zero_le _
  · have := matchRun_le m.data (sub64 last pos) m.mark (sub64 m.data.length m.mark) 0
    omega

theorem bestUpdate_snd (mm best len pos last ml : Nat) :
    (bestUpdate mm best len pos last ml).2 = len ∨ (bestUpdate mm best len pos last ml).2 = ml := by
  unfold bestUpdate
  split <;> simp

theorem walkLoop_zero_last (m : Matcher) (pos fuel best len : Nat) :
    Matcher.walkLoop m pos fuel best len 0 = (best, len) := by
  cases fuel <;> simp [Matcher.walkLoop]

theorem walkLoop_irrel (m : Matcher) (pos : Nat) :
    ∀ last fuel fuel2 best len, last ≤ fuel → last ≤ fuel2 →
      Matcher.walkLoop m pos fuel best len last =
        Matcher.walkLoop m pos fuel2 best len last := by
  intro last
  induction last using Nat.strong_induction_on with
  | _ last ih =>
    intro fuel fuel2 best len h1 h2
    by_cases h0 : last = 0
    · subst h0
      rw [walkLoop_zero_last, walkLoop_zero_last]
    · obtain ⟨f, rfl⟩ : ∃ f, fuel = f + 1 := ⟨fuel - 1, by omega⟩
      obtain ⟨f2, rfl⟩ : ∃ f2, fuel2 = f2 + 1 := ⟨fuel2 - 1, by omega⟩
      simp only [Matcher.walkLoop]
      rw [if_neg h0, if_neg h0]
      have hn : (if pos < m.check_match last pos ∧ m.prev.getD last 0 < last
          then m.prev.getD last 0 else 0) < last := by
        split
        next hc => exact hc.2
        next => omega
      exact ih _ hn f f2 _ _ (by omega) (by omega)

theorem chainWalk_zero (m : Matcher) (pos best len : Nat) :
    m.chainWalk pos best len 0 = (best, len) := rfl

theorem chainWalk_succ (m : Matcher) (pos best len last : Nat) (h : last ≠ 0) :
    m.chainWalk pos best len last =
      m.chainWalk pos
        (bestUpdate m.min_match best len pos last (m.check_match last pos)).1
        (bestUpdate m.min_match best len pos last (m.check_match last pos)).2
        (if pos < m.check_match last pos ∧ m.prev.getD last 0 < last then m.prev.getD last 0
         else 0) := by
  obtain ⟨k, rfl⟩ : ∃ k, last = k + 1 := ⟨last - 1, by omega⟩
  have hn : (if pos < m.check_match (k + 1) pos ∧ m.prev.getD (k + 1) 0 < k + 1
      then m.prev.getD (k + 1) 0 else 0) < k + 1 := by
    split
    next hc => exact hc.2
    next => omega
  unfold Matcher.chainWalk
  have hstep : Matcher.walkLoop m pos (k + 1) best len (k + 1) =
      Matcher.walkLoop m pos k
        (bestUpdate m.min_match best len pos (k + 1) (m.check_match (k + 1) pos)).1
        (bestUpdate m.min_match best len pos (k + 1) (m.check_match (k + 1) pos)).2
        (if pos < m.check_match (k + 1) pos ∧ m.prev.getD (k + 1) 0 < k + 1
         then m.prev.getD (k + 1) 0 else 0) := by
    simp only [Matcher.walkLoop]
    rw [if_neg h]
  rw [hstep]
  exact walkLoop_irrel m pos _ k _ _ _ (by omega) (le_refl _)

theorem chainWalk_snd_le (m : Matcher) (pos : Nat) :
    ∀ last best len, len ≤ sub64 m.data.length m.mark →
      (m.chainWalk pos best len last).2 ≤ sub64 m.data.length m.mark := by
  intro last
  induction last using Nat.strong_induction_on with
  | _ last ih =>
    intro best len hl
    by_cases h0 : last = 0
    · subst h0
      rw [chainWalk_zero]
      exact hl
    · rw [chainWalk_succ m pos best len last h0]
      refine ih _ ?_ _ _ ?_
      · split
        next hc => exact hc.2
        next => omega
      · rcases bestUpdate_snd m.min_match best len pos last (m.check_match last pos) with h1 | h1 <;>
          rw [h1]
        · exact hl
        · exact check_match_le m last pos

theorem sumLen_nil : sumLen [] = 0 := rfl

theorem sumLen_cons (a : Match) (t : List Match) : sumLen (a :: t) = a.length + sumLen t := rfl

theorem litStarts_nil : litStarts [] := trivial

theorem litStarts_cons (a : Match) (t : List Match) :
    litStarts (a :: t) ↔ (a.type = MatchType.Literal → a.offset = sumLen t) ∧ litStarts t :=
  Iff.rfl

theorem startsOk_nil (p : Nat) : startsOk p [] := trivial

theorem startsOk_cons (p : Nat) (a : Match) (t : List Match) :
    startsOk p (a :: t) ↔ (a.type = MatchType.Literal → a.offset = p) ∧ startsOk (p + a.length) t :=
  Iff.rfl

theorem scanLoop_pres : ∀ (fuel : Nat) (m : Matcher) (hval pos best len : Nat),
    (Matcher.scanLoop fuel m hval pos best len).1.data = m.data ∧
    (Matcher.scanLoop fuel m hval pos best len).1.mark = m.mark ∧
    (Matcher.scanLoop fuel m hval pos best len).1.rmatches = m.rmatches ∧
    (Matcher.scanLoop fuel m hval pos best len).1.min_match = m.min_match ∧
    (Matcher.scanLoop fuel m hval pos best len).1.max_match = m.max_match := by
  intro fuel
  induction fuel with
  | zero => intro m hval pos best len; simp [Matcher.scanLoop]
  | succ f ih =>
    intro m hval pos best len
    simp only [Matcher.scanLoop]
    split
    · exact ih _ _ _ _ _
    · split
      · exact ⟨rfl, rfl, rfl, rfl, rfl⟩
      · exact ih _ _ _ _ _

theorem scanLoop_len_le : ∀ (fuel : Nat) (m : Matcher) (hval pos best len : Nat),
    len ≤ sub64 m.data.length m.mark →
    (Matcher.scanLoop fuel m hval pos best len).2.2 ≤ sub64 m.data.length m.mark := by
  intro fuel
  induction fuel with
  | zero => intro m hval pos best len h; simpa [Matcher.scanLoop] using h
  | succ f ih =>
    intro m hval pos best len h
    simp only [Matcher.scanLoop]
    split
    · exact ih _ _ _ _ _ h
    · split
      · exact chainWalk_snd_le _ _ _ _ _ h
      · exact ih _ _ _ _ _ (chainWalk_snd_le _ _ _ _ _ h)

/-!  ## Emission lemmas  -/

theorem emit_data (m : Matcher) (best len : Nat) : (m.emit best len).data = m.data := by
  unfold Matcher.emit
  split <;> rfl

theorem emit_min_match (m : Matcher) (best len : Nat) :
    (m.emit best len).min_match = m.min_match := by
  unfold Matcher.emit
  split <;> rfl

theorem emit_max_match (m : Matcher) (best len : Nat) :
    (m.emit best len).max_match = m.max_match := by
  unfold Matcher.emit
  split <;> rfl

theorem emit_mark_eq (m : Matcher) (best len : Nat) :
    (m.emit best len).mark = if m.min_match ≤ len then m.mark + len else m.mark + 1 := by
  unfold Matcher.emit
  split <;> simp_all

theorem emit_sum (m : Matcher) (best len : Nat)
    (h : m.mark < m.data.length) (hlen : len ≤ m.data.length - m.mark)
    (hb : m.data.length < 2 ^ 32 - 1) (hs : sumLen m.rmatches = m.mark) :
    sumLen (m.emit best len).rmatches = (m.emit best len).mark := by
  have hlenmod : len % 2 ^ 32 = len := Nat.mod_eq_of_lt (by omega)
  unfold Matcher.emit
  split
  · rcases hr : m.rmatches with _ | ⟨b, t⟩ <;> rw [hr] at hs <;> simp only [hr]
    · simp only [sumLen_nil] at hs
      simp [sumLen_cons, sumLen_nil, hlenmod]
      omega
    · simp only [sumLen_cons] at hs
      split
      · simp [sumLen_cons, hlenmod]
        omega
      · simp [sumLen_cons, hlenmod]
        omega
  · rcases hr : m.rmatches with _ | ⟨b, t⟩ <;> rw [hr] at hs <;> simp only [hr]
    · simp only [sumLen_nil] at hs
      simp [sumLen_cons, sumLen_nil]
      omega
    · simp only [sumLen_cons] at hs
      split
      · simp [sumLen_cons]
        omega
      · have hbmod : (b.length + 1) % 2 ^ 32 = b.length + 1 := Nat.mod_eq_of_lt (by omega)
        simp [sumLen_cons, hbmod]
        omega

theorem emit_litStarts (m : Matcher) (best len : Nat)
    (h : m.mark < m.data.length) (hb : m.data.length < 2 ^ 32 - 1)
    (hs : sumLen m.rmatches = m.mark) (hl : litStarts m.rmatches) :
    litStarts (m.emit best len).rmatches := by
  have hmarkmod : m.mark % 2 ^ 32 = m.mark := Nat.mod_eq_of_lt (by omega)
  unfold Matcher.emit
  split
  · rcases hr : m.rmatches with _ | ⟨b, t⟩ <;> rw [hr] at hs hl <;> simp only [hr]
    · simp [litStarts_cons, litStarts_nil]
    · split
      · simp only [litStarts_cons]
        exact ⟨by simp, hl⟩
      · simp only [litStarts_cons] at hl ⊢
        exact ⟨by simp, hl.2⟩
  · rcases hr : m.rmatches with _ | ⟨b, t⟩ <;> rw [hr] at hs hl <;> simp only [hr]
    · simp only [sumLen_nil] at hs
      simp only [litStarts_cons, litStarts_nil, sumLen_nil, and_true]
      intro _
      show m.mark % 2 ^ 32 = 0
      omega
    · simp only [sumLen_cons] at hs
      split
      · simp only [litStarts_cons] at hl ⊢
        refine ⟨fun _ => ?_, hl⟩
        show m.mark % 2 ^ 32 = sumLen (b :: t)
        rw [sumLen_cons]
        omega
      · simp only [litStarts_cons] at hl ⊢
        exact ⟨fun hb2 => hl.1 hb2, hl.2⟩

theorem emit_copyMin (m : Matcher) (best len : Nat)
    (h : m.mark < m.data.length) (hlen : len ≤ m.data.length - m.mark)
    (hb : m.data.length < 2 ^ 32 - 1) (hs : sumLen m.rmatches = m.mark)
    (hcm : copyMinList m.min_match m.rmatches) :
    copyMinList m.min_match (m.emit best len).rmatches := by
  have hlenmod : len % 2 ^ 32 = len := Nat.mod_eq_of_lt (by omega)
  unfold Matcher.emit
  split
  next hc =>
    rcases hr : m.rmatches with _ | ⟨b, t⟩ <;> rw [hr] at hs hcm <;> simp only [hr]
    · intro i hi
      rcases List.mem_singleton.mp hi with rfl
      intro _
      show m.min_match ≤ len % 2 ^ 32
      omega
    · split
      · intro i hi hcopy
        rcases List.mem_cons.mp hi with rfl | hi2
        · show m.min_match ≤ len % 2 ^ 32
          omega
        · exact hcm i hi2 hcopy
      · intro i hi hcopy
        rcases List.mem_cons.mp hi with rfl | hi2
        · show m.min_match ≤ len % 2 ^ 32
          omega
        · exact hcm i (List.mem_cons_of_mem b hi2) hcopy
  · rcases hr : m.rmatches with _ | ⟨b, t⟩ <;> rw [hr] at hs hcm <;> simp only [hr]
    · intro i hi
      rcases List.mem_singleton.mp hi with rfl
      intro hcopy
      simp at hcopy
    · simp only [sumLen_cons] at hs
      split
      · intro i hi hcopy
        rcases List.mem_cons.mp hi with rfl | hi2
        · simp at hcopy
        · exact hcm i hi2 hcopy
      · intro i hi hcopy
        rcases List.mem_cons.mp hi with rfl | hi2
        · have hbmod : (b.length + 1) % 2 ^ 32 = b.length + 1 := Nat.mod_eq_of_lt (by omega)
          have := hcm b (List.mem_cons_self b t) hcopy
          simp only [hbmod]
          omega
        · exact hcm i (List.mem_cons_of_mem b hi2) hcopy

theorem emit_litEnd_chain (m : Matcher) (best len : Nat)
    (h : m.mark < m.data.length) (hb : m.data.length < 2 ^ 32 - 1)
    (hs : sumLen m.rmatches = m.mark)
    (hle : litEndList m.mark m.rmatches) (hch : chainList m.rmatches) :
    litEndList (m.emit best len).mark (m.emit best len).rmatches ∧
      chainList (m.emit best len).rmatches := by
  unfold Matcher.emit
  split
  next hc =>
    rcases hr : m.rmatches with _ | ⟨b, t⟩ <;> rw [hr] at hs hle hch <;> simp only [hr]
    · constructor
      · intro i hi hlit
        rcases List.mem_singleton.mp hi with rfl
        simp at hlit
      · simp [chainList]
    · split
      · constructor
        · intro i hi hlit
          rcases List.mem_cons.mp hi with rfl | hi2
          · simp at hlit
          · have := hle i hi2 hlit
            omega
        · unfold chainList at hch ⊢
          rw [List.chain'_cons]
          exact ⟨by simp [contigLits], hch⟩
      · constructor
        · intro i hi hlit
          rcases List.mem_cons.mp hi with rfl | hi2
          · simp at hlit
          · have := hle i (List.mem_cons_of_mem b hi2) hlit
            omega
        · unfold chainList at hch ⊢
          refine List.chain'_cons'.mpr ⟨?_, hch.tail⟩
          intro y hy
          simp [contigLits]
  next hc =>
    rcases hr : m.rmatches with _ | ⟨b, t⟩ <;> rw [hr] at hs hle hch <;> simp only [hr]
    · constructor
      · intro i hi hlit
        rcases List.mem_singleton.mp hi with rfl
        show m.mark % 2 ^ 32 + 1 ≤ m.mark + 1
        omega
      · simp [chainList]
    · simp only [sumLen_cons] at hs
      split
      next hne =>
        constructor
        · intro i hi hlit
          rcases List.mem_cons.mp hi with rfl | hi2
          · show m.mark % 2 ^ 32 + 1 ≤ m.mark + 1
            omega
          · have := hle i hi2 hlit
            omega
        · unfold chainList at hch ⊢
          rw [List.chain'_cons]
          refine ⟨?_, hch⟩
          rintro ⟨hbl, _, hoff⟩
          have hbe := hle b (List.mem_cons_self b t) hbl
          apply hne
          have hoff2 : b.offset + b.length = m.mark % 2 ^ 32 := hoff
          show (b.offset + b.length) % 2 ^ 32 = m.mark
          omega
      next hne =>
        push_neg at hne
        constructor
        · intro i hi hlit
          rcases List.mem_cons.mp hi with rfl | hi2
          · have hbl : b.type = MatchType.Literal := hlit
            have := hle b (List.mem_cons_self b t) hbl
            show b.offset + (b.length + 1) % 2 ^ 32 ≤ m.mark + 1
            omega
          · have := hle i (List.mem_cons_of_mem b hi2) hlit
            omega
        · unfold chainList at hch ⊢
          have hsplit := List.chain'_cons'.mp hch
          refine List.chain'_cons'.mpr ⟨?_, hsplit.2⟩
          intro y hy hcon
          exact hsplit.1 y hy ⟨hcon.1, hcon.2.1, hcon.2.2⟩

theorem emit_lenOK (m : Matcher) (best len : Nat)
    (h : m.mark < m.data.length) (hlen : len ≤ m.data.length - m.mark)
    (hb : m.data.length < 2 ^ 32 - 1) (hs : sumLen m.rmatches = m.mark)
    (h1 : 1 ≤ m.min_match)
    (hok : lenOKList m.rmatches ∨ phHead m.mark m.rmatches) :
    lenOKList (m.emit best len).rmatches := by
  unfold Matcher.emit
  split
  next hc =>
    rcases hr : m.rmatches with _ | ⟨b, t⟩ <;> rw [hr] at hs hok <;> simp only [hr]
    · intro i hi
      rcases List.mem_singleton.mp hi with rfl
      show 1 ≤ len % 2 ^ 32
      omega
    · simp only [sumLen_cons] at hs
      split
      next hbpos =>
        intro i hi
        rcases List.mem_cons.mp hi with rfl | hi2
        · show 1 ≤ len % 2 ^ 32
          omega
        · rcases hok with hok | ⟨hh, ht⟩
          · exact hok i hi2
          · rcases List.mem_cons.mp hi2 with rfl | hi3
            · omega
            · exact ht i hi3
      next hb0 =>
        intro i hi
        rcases List.mem_cons.mp hi with rfl | hi2
        · show 1 ≤ len % 2 ^ 32
          omega
        · rcases hok with hok | ⟨hh, ht⟩
          · exact hok i (List.mem_cons_of_mem b hi2)
          · exact ht i hi2
  next hc =>
    rcases hr : m.rmatches with _ | ⟨b, t⟩ <;> rw [hr] at hs hok <;> simp only [hr]
    · intro i hi
      rcases List.mem_singleton.mp hi with rfl
      show 1 ≤ 1
      omega
    · simp only [sumLen_cons] at hs
      split
      next hne =>
        intro i hi
        rcases List.mem_cons.mp hi with rfl | hi2
        · show 1 ≤ 1
          omega
        · rcases hok with hok | ⟨hh, ht⟩
          · exact hok i hi2
          · exfalso
            have hbv : b = ⟨MatchType.Literal, m.mark % 2 ^ 32, 0⟩ := by
              simpa using hh
            apply hne
            rw [hbv]
            show (m.mark % 2 ^ 32 + 0) % 2 ^ 32 = m.mark
            omega
      next hne =>
        intro i hi
        rcases List.mem_cons.mp hi with rfl | hi2
        · show 1 ≤ (b.length + 1) % 2 ^ 32
          omega
        · rcases hok with hok | ⟨hh, ht⟩
          · exact hok i (List.mem_cons_of_mem b hi2)
          · exact ht i hi2

theorem emit_mark_le (m : Matcher) (best len : Nat)
    (h : m.mark < m.data.length) (hlen : len ≤ m.data.length - m.mark) :
    (m.emit best len).mark ≤ m.data.length := by
  rw [emit_mark_eq]
  split <;> omega

theorem emit_mark_lt (m : Matcher) (best len : Nat) (h1 : 1 ≤ m.min_match) :
    m.mark < (m.emit best len).mark := by
  rw [emit_mark_eq]
  split
  next hc => omega
  next hc => omega

/-!  ## Outer-loop step lemmas  -/

theorem step_eq (m : Matcher) : m.decomposeStep =
    (Matcher.scanLoop (min (sub64 m.data.length m.mark) m.max_match) m 0 0 0 0).1.emit
      (Matcher.scanLoop (min (sub64 m.data.length m.mark) m.max_match) m 0 0 0 0).2.1
      (Matcher.scanLoop (min (sub64 m.data.length m.mark) m.max_match) m 0 0 0 0).2.2 := rfl

theorem step_data (m : Matcher) : m.decomposeStep.data = m.data := by
  rw [step_eq m, emit_data]
  exact (scanLoop_pres _ _ _ _ _ _).1

theorem step_min_match (m : Matcher) : m.decomposeStep.min_match = m.min_match := by
  rw [step_eq m, emit_min_match]
  exact (scanLoop_pres _ _ _ _ _ _).2.2.2.1

theorem step_mark_lt (m : Matcher) (h1 : 1 ≤ m.min_match) :
    m.mark < m.decomposeStep.mark := by
  rw [step_eq m]
  obtain ⟨hd, hmk, hrm, hmin, hmax⟩ :=
    scanLoop_pres (min (sub64 m.data.length m.mark) m.max_match) m 0 0 0 0
  set s := Matcher.scanLoop (min (sub64 m.data.length m.mark) m.max_match) m 0 0 0 0 with hsdef
  have h2 := emit_mark_lt s.1 s.2.1 s.2.2 (by rw [hmin]; exact h1)
  omega

theorem step_len_bound (m : Matcher) (h : m.mark < m.data.length) :
    (Matcher.scanLoop (min (sub64 m.data.length m.mark) m.max_match) m 0 0 0 0).2.2 ≤
      m.data.length - m.mark := by
  have h2 := scanLoop_len_le (min (sub64 m.data.length m.mark) m.max_match) m 0 0 0 0
    (Nat.zero_le _)
  have h3 := sub64_le m.data.length m.mark (by omega)
  omega

theorem step_mark_le (m : Matcher) (h : m.mark < m.data.length) :
    m.decomposeStep.mark ≤ m.data.length := by
  rw [step_eq m]
  obtain ⟨hd, hmk, hrm, hmin, hmax⟩ :=
    scanLoop_pres (min (sub64 m.data.length m.mark) m.max_match) m 0 0 0 0
  have hlb := step_len_bound m h
  set s := Matcher.scanLoop (min (sub64 m.data.length m.mark) m.max_match) m 0 0 0 0 with hsdef
  have h2 := emit_mark_le s.1 s.2.1 s.2.2 (by rw [hd, hmk]; exact h) (by rw [hd, hmk]; exact hlb)
  rw [hd] at h2
  exact h2

theorem step_sum (m : Matcher) (h : m.mark < m.data.length) (hb : m.data.length < 2 ^ 32 - 1)
    (hs : sumLen m.rmatches = m.mark) :
    sumLen m.decomposeStep.rmatches = m.decomposeStep.mark := by
  rw [step_eq m]
  obtain ⟨hd, hmk, hrm, hmin, hmax⟩ :=
    scanLoop_pres (min (sub64 m.data.length m.mark) m.max_match) m 0 0 0 0
  have hlb := step_len_bound m h
  set s := Matcher.scanLoop (min (sub64 m.data.length m.mark) m.max_match) m 0 0 0 0 with hsdef
  exact emit_sum s.1 s.2.1 s.2.2 (by rw [hd, hmk]; exact h) (by rw [hd, hmk]; exact hlb)
    (by rw [hd]; exact hb) (by rw [hrm, hmk]; exact hs)

theorem step_litStarts (m : Matcher) (h : m.mark < m.data.length)
    (hb : m.data.length < 2 ^ 32 - 1) (hs : sumLen m.rmatches = m.mark)
    (hl : litStarts m.rmatches) : litStarts m.decomposeStep.rmatches := by
  rw [step_eq m]
  obtain ⟨hd, hmk, hrm, hmin, hmax⟩ :=
    scanLoop_pres (min (sub64 m.data.length m.mark) m.max_match) m 0 0 0 0
  set s := Matcher.scanLoop (min (sub64 m.data.length m.mark) m.max_match) m 0 0 0 0 with hsdef
  exact emit_litStarts s.1 s.2.1 s.2.2 (by rw [hd, hmk]; exact h) (by rw [hd]; exact hb)
    (by rw [hrm, hmk]; exact hs) (by rw [hrm]; exact hl)

theorem step_copyMin (m : Matcher) (h : m.mark < m.data.length)
    (hb : m.data.length < 2 ^ 32 - 1) (hs : sumLen m.rmatches = m.mark)
    (hcm : copyMinList m.min_match m.rmatches) :
    copyMinList m.min_match m.decomposeStep.rmatches := by
  rw [step_eq m]
  obtain ⟨hd, hmk, hrm, hmin, hmax⟩ :=
    scanLoop_pres (min (sub64 m.data.length m.mark) m.max_match) m 0 0 0 0
  have hlb := step_len_bound m h
  set s := Matcher.scanLoop (min (sub64 m.data.length m.mark) m.max_match) m 0 0 0 0 with hsdef
  have h2 := emit_copyMin s.1 s.2.1 s.2.2 (by rw [hd, hmk]; exact h) (by rw [hd, hmk]; exact hlb)
    (by rw [hd]; exact hb) (by rw [hrm, hmk]; exact hs) (by rw [hrm, hmin]; exact hcm)
  rw [hmin] at h2
  exact h2

theorem step_litEnd_chain (m : Matcher) (h : m.mark < m.data.length)
    (hb : m.data.length < 2 ^ 32 - 1) (hs : sumLen m.rmatches = m.mark)
    (hle : litEndList m.mark m.rmatches) (hch : chainList m.rmatches) :
    litEndList m.decomposeStep.mark m.decomposeStep.rmatches ∧
      chainList m.decomposeStep.rmatches := by
  rw [step_eq m]
  obtain ⟨hd, hmk, hrm, hmin, hmax⟩ :=
    scanLoop_pres (min (sub64 m.data.length m.mark) m.max_match) m 0 0 0 0
  set s := Matcher.scanLoop (min (sub64 m.data.length m.mark) m.max_match) m 0 0 0 0 with hsdef
  exact emit_litEnd_chain s.1 s.2.1 s.2.2 (by rw [hd, hmk]; exact h) (by rw [hd]; exact hb)
    (by rw [hrm, hmk]; exact hs) (by rw [hrm, hmk]; exact hle) (by rw [hrm]; exact hch)

theorem step_lenOK (m : Matcher) (h : m.mark < m.data.length)
    (hb : m.data.length < 2 ^ 32 - 1) (hs : sumLen m.rmatches = m.mark)
    (h1 : 1 ≤ m.min_match)
    (hok : lenOKList m.rmatches ∨ phHead m.mark m.rmatches) :
    lenOKList m.decomposeStep.rmatches := by
  rw [step_eq m]
  obtain ⟨hd, hmk, hrm, hmin, hmax⟩ :=
    scanLoop_pres (min (sub64 m.data.length m.mark) m.max_match) m 0 0 0 0
  have hlb := step_len_bound m h
  set s := Matcher.scanLoop (min (sub64 m.data.length m.mark) m.max_match) m 0 0 0 0 with hsdef
  exact emit_lenOK s.1 s.2.1 s.2.2 (by rw [hd, hmk]; exact h) (by rw [hd, hmk]; exact hlb)
    (by rw [hd]; exact hb) (by rw [hrm, hmk]; exact hs) (by rw [hmin]; exact h1)
    (by rw [hrm, hmk]; exact hok)

/-!  ## Outer loop and decompose lemmas  -/

theorem decomposeLoop_inv (P : Matcher → Prop)
    (hstep : ∀ m, P m → m.mark < m.data.length → P m.decomposeStep) :
    ∀ (fuel : Nat) (m : Matcher), P m → P (Matcher.decomposeLoop fuel m) := by
  intro fuel
  induction fuel with
  | zero => intro m h; simpa [Matcher.decomposeLoop] using h
  | succ f ih =>
    intro m h
    simp only [Matcher.decomposeLoop]
    split
    next hlt => exact ih _ (hstep m h hlt)
    next => exact h

theorem decomposeLoop_complete : ∀ (fuel : Nat) (m : Matcher), 1 ≤ m.min_match →
    m.mark ≤ m.data.length → m.data.length - m.mark ≤ fuel →
    (Matcher.decomposeLoop fuel m).mark = m.data.length ∧
      (Matcher.decomposeLoop fuel m).data = m.data := by
  intro fuel
  induction fuel with
  | zero =>
    intro m h1 h2 h3
    simp only [Matcher.decomposeLoop]
    exact ⟨by omega, by trivial⟩
  | succ f ih =>
    intro m h1 h2 h3
    simp only [Matcher.decomposeLoop]
    split
    next hlt =>
      have hpl := step_mark_lt m h1
      have hple := step_mark_le m hlt
      have hpd := step_data m
      have hpm := step_min_match m
      obtain ⟨ha, hb2⟩ := ih m.decomposeStep (by rw [hpm]; exact h1) (by rw [hpd]; exact hple)
        (by rw [hpd]; omega)
      rw [hpd] at ha hb2
      exact ⟨ha, hb2⟩
    next hlt => exact ⟨by omega, by trivial⟩

theorem decompose_complete (m : Matcher) (h1 : 1 ≤ m.min_match) (h2 : m.mark ≤ m.data.length) :
    (m.decompose true).mark = m.data.length ∧ (m.decompose true).data = m.data := by
  unfold Matcher.decompose
  split
  · exact decomposeLoop_complete _ _ h1 h2 (Nat.le_refl _)
  · exact decomposeLoop_complete _ _ h1 h2 (Nat.le_refl _)

theorem runCfg_eq (bits mm mx : Nat) (S : List Nat) (h : 0 < S.length) :
    runMatcherCfg bits mm mx S =
      Matcher.decomposeLoop S.length
        { (Matcher.mkCfg bits mm mx).append S with
            rmatches := [⟨MatchType.Literal, 0, 0⟩] } := by
  unfold runMatcherCfg Matcher.decompose
  split
  next => rfl
  next hc => exact absurd ⟨rfl, h⟩ hc

/-!  ## List lemmas for the coverage statement  -/

theorem sumLen_append (l1 l2 : List Match) : sumLen (l1 ++ l2) = sumLen l1 + sumLen l2 := by
  induction l1 with
  | nil => simp [sumLen_nil]
  | cons a t ih => simp [sumLen_cons, ih]; omega

theorem sumLen_reverse (l : List Match) : sumLen l.reverse = sumLen l := by
  induction l with
  | nil => rfl
  | cons a t ih =>
    rw [List.reverse_cons, sumLen_append, sumLen_cons, ih, sumLen_cons, sumLen_nil]
    omega

theorem startsOk_append (p : Nat) (l1 l2 : List Match) (h1 : startsOk p l1)
    (h2 : startsOk (p + sumLen l1) l2) : startsOk p (l1 ++ l2) := by
  induction l1 generalizing p with
  | nil => simpa [sumLen_nil] using h2
  | cons a t ih =>
    rw [List.cons_append, startsOk_cons]
    rw [startsOk_cons] at h1
    refine ⟨h1.1, ih (p + a.length) h1.2 ?_⟩
    have he : p + a.length + sumLen t = p + sumLen (a :: t) := by
      rw [sumLen_cons]; omega
    rw [he]
    exact h2

theorem litStarts_reverse (l : List Match) (h : litStarts l) : startsOk 0 l.reverse := by
  induction l with
  | nil => exact trivial
  | cons a t ih =>
    rw [List.reverse_cons]
    rw [litStarts_cons] at h
    refine startsOk_append 0 t.reverse [a] (ih h.2) ?_
    rw [startsOk_cons]
    refine ⟨fun hl => ?_, trivial⟩
    rw [sumLen_reverse, Nat.zero_add]
    exact h.1 hl

/-!  ## Claim theorems  -/

/-- C5: for every input sequence, `decompose` terminates — the outer loop
consumes the whole buffer with the fuel `data.size() - mark` because the
cursor strictly increases on every iteration (second conjunct), and the
chain walk is total by the strictly-decreasing-offset rule (it is a
well-founded recursion on `last` in this development) — and on return
`mark` equals the buffer length (first conjunct). -/
theorem c5_decompose_terminates (S : List Nat) :
    (runMatcher S).mark = S.length ∧
      (∀ m : Matcher, 1 ≤ m.min_match → m.mark < m.data.length →
        m.mark < m.decomposeStep.mark) := by
  constructor
  · have h := decompose_complete ((Matcher.mkInit 15).append S)
      (by show (1 : Nat) ≤ 3; omega) (Nat.zero_le _)
    exact h.1
  · intro m h1 _h2
    exact step_mark_lt m h1

/-- witness for C5 at concrete inputs. -/
theorem c5_witness :
    (runMatcher [7, 7, 7, 7]).mark = 4 ∧
      ((Matcher.mkInit 15).append [5]).mark <
        ((Matcher.mkInit 15).append [5]).decomposeStep.mark :=
  ⟨(c5_decompose_terminates [7, 7, 7, 7]).1,
   (c5_decompose_terminates []).2 ((Matcher.mkInit 15).append [5]) (by decide) (by decide)⟩

/-- C2: after a single-batch `decompose` the instruction lengths sum
exactly to the input length, and instructions tile the logical output
stream contiguously: every literal starts exactly at the running output
position (`startsOk`), so there are no gaps and no overlaps. -/
theorem c2_coverage (S : List Nat) (hS : S.length < 2 ^ 32 - 1) :
    sumLen (runMatcher S).matches = S.length ∧ startsOk 0 (runMatcher S).matches := by
  have hrun : runMatcher S = runMatcherCfg 15 3 32 S := rfl
  by_cases h0 : 0 < S.length
  · rw [hrun, runCfg_eq 15 3 32 S h0]
    have hP := decomposeLoop_inv
      (fun m => sumLen m.rmatches = m.mark ∧ litStarts m.rmatches ∧
        m.data.length < 2 ^ 32 - 1)
      (fun m hp hlt => ⟨step_sum m hlt hp.2.2 hp.1,
        step_litStarts m hlt hp.2.2 hp.1 hp.2.1,
        by rw [step_data]; exact hp.2.2⟩)
      S.length
      ({ (Matcher.mkCfg 15 3 32).append S with rmatches := [⟨MatchType.Literal, 0, 0⟩] })
      ⟨rfl, ⟨fun _ => rfl, trivial⟩, hS⟩
    have hC := decomposeLoop_complete S.length
      ({ (Matcher.mkCfg 15 3 32).append S with rmatches := [⟨MatchType.Literal, 0, 0⟩] })
      (by show (1 : Nat) ≤ 3; omega) (Nat.zero_le _) (Nat.le_refl _)
    constructor
    · rw [Matcher.matches, sumLen_reverse, hP.1, hC.1]
      exact rfl
    · rw [Matcher.matches]
      exact litStarts_reverse _ hP.2.1
  · have hnil : S = [] := List.length_eq_zero.mp (by omega)
    subst hnil
    exact ⟨rfl, trivial⟩

/-- witness for C2 at a concrete input. -/
theorem c2_witness :
    sumLen (runMatcher [3, 1, 2]).matches = 3 ∧ startsOk 0 (runMatcher [3, 1, 2]).matches :=
  c2_coverage [3, 1, 2] (by decide)

/-- C4: for every configuration and input, every `Copy` instruction in
the final match list has length at least `min_match`; runs shorter than
`min_match` only ever advance the cursor through the `Literal` branch. -/
theorem c4_copy_min_length (bits mm mx : Nat) (S : List Nat) (hS : S.length < 2 ^ 32 - 1) :
    ∀ i ∈ (runMatcherCfg bits mm mx S).matches, i.type = MatchType.Copy → mm ≤ i.length := by
  by_cases h0 : 0 < S.length
  · rw [runCfg_eq bits mm mx S h0]
    have hP := decomposeLoop_inv
      (fun m => copyMinList m.min_match m.rmatches ∧ m.min_match = mm ∧
        sumLen m.rmatches = m.mark ∧ m.data.length < 2 ^ 32 - 1)
      (fun m hp hlt =>
        ⟨by
          have h2 := step_copyMin m hlt hp.2.2.2 hp.2.2.1 hp.1
          rw [step_min_match]
          exact h2,
         by rw [step_min_match]; exact hp.2.1,
         step_sum m hlt hp.2.2.2 hp.2.2.1,
         by rw [step_data]; exact hp.2.2.2⟩)
      S.length
      ({ (Matcher.mkCfg bits mm mx).append S with rmatches := [⟨MatchType.Literal, 0, 0⟩] })
      ⟨by
        intro i hi hc
        rcases List.mem_singleton.mp hi with rfl
        simp at hc,
       rfl, rfl, hS⟩
    intro i hi hcopy
    rw [Matcher.matches] at hi
    have h2 := hP.1 i (List.mem_reverse.mp hi) hcopy
    rw [hP.2.1] at h2
    exact h2
  · have hnil : S = [] := List.length_eq_zero.mp (by omega)
    subst hnil
    intro i hi
    have he : (runMatcherCfg bits mm mx []).matches = [] := rfl
    rw [he] at hi
    exact absurd hi (List.not_mem_nil i)

/-- witness for C4: the `Copy` instruction produced on a concrete
periodic input has length at least `min_match = 3`. -/
theorem c4_witness :
    3 ≤ ((runMatcherCfg 4 3 32 [97, 98, 99, 97, 98, 99, 97, 98, 99]).matches.getD 1
        ⟨MatchType.Copy, 0, 0⟩).length :=
  c4_copy_min_length 4 3 32 [97, 98, 99, 97, 98, 99, 97, 98, 99] (by decide) _
    (by decide) (by decide)

/-- C6 (amended to a single batch): in a single-batch run no two adjacent
instructions are contiguous literals — contiguous single-symbol literals
are always merged into the previous `Literal`. -/
theorem c6_single_batch (S : List Nat) (hS : S.length < 2 ^ 32 - 1) :
    List.Chain' (fun a b => ¬ contigLits a b) (runMatcher S).matches := by
  have hrun : runMatcher S = runMatcherCfg 15 3 32 S := rfl
  by_cases h0 : 0 < S.length
  · rw [hrun, runCfg_eq 15 3 32 S h0]
    have hP := decomposeLoop_inv
      (fun m => chainList m.rmatches ∧ litEndList m.mark m.rmatches ∧
        sumLen m.rmatches = m.mark ∧ m.data.length < 2 ^ 32 - 1)
      (fun m hp hlt =>
        have hlc := step_litEnd_chain m hlt hp.2.2.2 hp.2.2.1 hp.2.1 hp.1
        ⟨hlc.2, hlc.1, step_sum m hlt hp.2.2.2 hp.2.2.1,
          by rw [step_data]; exact hp.2.2.2⟩)
      S.length
      ({ (Matcher.mkCfg 15 3 32).append S with rmatches := [⟨MatchType.Literal, 0, 0⟩] })
      ⟨List.chain'_singleton _,
       by
        intro i hi hl
        rcases List.mem_singleton.mp hi with rfl
        show (0 : Nat) + 0 ≤ 0
        omega,
       rfl, hS⟩
    rw [Matcher.matches, List.chain'_reverse]
    exact hP.1
  · have hnil : S = [] := List.length_eq_zero.mp (by omega)
    subst hnil
    have he : (runMatcher []).matches = [] := rfl
    rw [he]
    exact List.chain'_nil

/-- witness for the amended C6 at a concrete input. -/
theorem c6_witness :
    List.Chain' (fun a b => ¬ contigLits a b) (runMatcher [4, 5, 6]).matches :=
  c6_single_batch [4, 5, 6] (by decide)

/-- C6 counterexample: two batches (`append [1,2]; decompose; append [3];
decompose`) leave two adjacent contiguous `Literal` instructions in the
final match list — the partition placeholder is never merged into the
previous literal across a batch boundary. -/
theorem c6_counterexample :
    ¬ List.Chain' (fun a b => ¬ contigLits a b)
        (matchesO (runOps [MOp.app [1, 2], MOp.dec, MOp.app [3], MOp.dec])) := by
  have he : matchesO (runOps [MOp.app [1, 2], MOp.dec, MOp.app [3], MOp.dec]) =
      [⟨MatchType.Literal, 0, 2⟩, ⟨MatchType.Literal, 2, 1⟩] := by decide
  rw [he]
  intro hch
  rw [List.chain'_cons] at hch
  exact hch.1 ⟨rfl, rfl, rfl⟩

/-!  ## Decompose-level invariant and the multi-batch machinery  -/

theorem decompose_inv (P : Matcher → Prop)
    (hstep : ∀ m2, P m2 → m2.mark < m2.data.length → P m2.decomposeStep)
    (m : Matcher)
    (hph : m.mark < m.data.length →
      P { m with rmatches := ⟨MatchType.Literal, m.mark % 2 ^ 32, 0⟩ :: m.rmatches })
    (hp : P m) :
    P (m.decompose true) := by
  unfold Matcher.decompose
  split
  next hc => exact decomposeLoop_inv P hstep _ _ (hph hc.2)
  next hc => exact decomposeLoop_inv P hstep _ _ hp

theorem decompose_lenOK (m : Matcher) (h1 : 1 ≤ m.min_match) (hmk : m.mark ≤ m.data.length)
    (hb : m.data.length < 2 ^ 32 - 1) (hs : sumLen m.rmatches = m.mark)
    (hok : lenOKList m.rmatches) :
    lenOKList (m.decompose true).rmatches ∧
      sumLen (m.decompose true).rmatches = (m.decompose true).mark ∧
      (m.decompose true).mark = m.data.length ∧
      (m.decompose true).data = m.data ∧
      (m.decompose true).min_match = m.min_match := by
  have hcomp := decompose_complete m h1 hmk
  have hP := decompose_inv
    (fun m2 => (lenOKList m2.rmatches ∨
        (m2.mark < m2.data.length ∧ phHead m2.mark m2.rmatches)) ∧
      sumLen m2.rmatches = m2.mark ∧ m2.data.length < 2 ^ 32 - 1 ∧ 1 ≤ m2.min_match ∧
      m2.data = m.data ∧ m2.min_match = m.min_match)
    (fun m2 hp hlt =>
      ⟨Or.inl (step_lenOK m2 hlt hp.2.2.1 hp.2.1 hp.2.2.2.1
          (hp.1.elim Or.inl fun hr => Or.inr hr.2)),
       step_sum m2 hlt hp.2.2.1 hp.2.1,
       by rw [step_data]; exact hp.2.2.1,
       by rw [step_min_match]; exact hp.2.2.2.1,
       by rw [step_data]; exact hp.2.2.2.2.1,
       by rw [step_min_match]; exact hp.2.2.2.2.2⟩)
    m
    (fun hlt =>
      ⟨Or.inr ⟨hlt, rfl, hok⟩,
       by rw [sumLen_cons]; show 0 + sumLen m.rmatches = m.mark; omega,
       hb, h1, rfl, rfl⟩)
    ⟨Or.inl hok, hs, hb, h1, rfl, rfl⟩
  refine ⟨?_, hP.2.1, hcomp.1, hcomp.2, hP.2.2.2.2.2⟩
  rcases hP.1 with hok2 | ⟨hlt2, _⟩
  · exact hok2
  · rw [hcomp.1, hcomp.2] at hlt2
    omega

theorem appendChecked_some (m : Matcher) (xs : List Nat) (m2 : Matcher)
    (h : m.appendChecked xs = some m2) :
    m2.data = m.data ++ xs ∧ m2.mark = m.mark ∧ m2.rmatches = m.rmatches ∧
      m2.min_match = m.min_match ∧ m2.data.length < 2 ^ 32 - 1 := by
  unfold Matcher.appendChecked at h
  split at h
  next hcond =>
    injection h with h2
    subst h2
    refine ⟨rfl, rfl, rfl, rfl, ?_⟩
    show (m.data ++ xs).length < 2 ^ 32 - 1
    rw [List.length_append]
    omega
  next => exact absurd h (by simp)

theorem runOpsFrom_lenOK : ∀ (ops : List MOp) (m : Matcher), 1 ≤ m.min_match →
    m.mark ≤ m.data.length → m.data.length < 2 ^ 32 - 1 → sumLen m.rmatches = m.mark →
    lenOKList m.rmatches → ∀ m2, runOpsFrom m ops = some m2 → lenOKList m2.rmatches := by
  intro ops
  induction ops with
  | nil =>
    intro m h1 h2 h3 h4 h5 m2 hrun
    unfold runOpsFrom at hrun
    injection hrun with h6
    subst h6
    exact h5
  | cons op rest ih =>
    intro m h1 h2 h3 h4 h5 m2 hrun
    unfold runOpsFrom at hrun
    cases op with
    | app xs =>
      simp only [applyOp] at hrun
      rcases happ : m.appendChecked xs with _ | m3
      · rw [happ] at hrun
        simp at hrun
      · rw [happ] at hrun
        obtain ⟨hd, hmk, hrm, hmin, hb2⟩ := appendChecked_some m xs m3 happ
        refine ih m3 ?_ ?_ hb2 ?_ ?_ m2 hrun
        · rw [hmin]; exact h1
        · rw [hmk, hd, List.length_append]; omega
        · rw [hrm, hmk]; exact h4
        · rw [hrm]; exact h5
    | dec =>
      simp only [applyOp] at hrun
      have hrun2 : runOpsFrom (m.decompose true) rest = some m2 := hrun
      obtain ⟨hok2, hs2, hmk2, hd2, hmin2⟩ := decompose_lenOK m h1 h2 h3 h4 h5
      refine ih (m.decompose true) ?_ ?_ ?_ hs2 hok2 m2 hrun2
      · rw [hmin2]; exact h1
      · rw [hmk2, hd2]
      · rw [hd2]; exact h3

/-- C10: across every sequence of appends and decomposes, every
instruction in the final match list has positive length — the zero-length
partition placeholder is always resolved (extended or overwritten) before
`decompose` returns, since it is only pushed when unprocessed data
remains. -/
theorem c10_positive_lengths (ops : List MOp) (m2 : Matcher) (h : runOps ops = some m2) :
    ∀ i ∈ m2.matches, 1 ≤ i.length := by
  intro i hi
  have hlen := runOpsFrom_lenOK ops (Matcher.mkInit 15) (by show (1 : Nat) ≤ 3; omega)
    (Nat.le_refl _) (by show (0 : Nat) < 2 ^ 32 - 1; omega) rfl
    (fun j hj => absurd hj (List.not_mem_nil j)) m2 h
  rw [Matcher.matches] at hi
  exact hlen i (List.mem_reverse.mp hi)

/-- witness for C10: the first instruction of a concrete two-batch run
has positive length. -/
theorem c10_witness :
    1 ≤ ((matchesO (runOps [MOp.app [1, 2], MOp.dec, MOp.app [3], MOp.dec])).getD 0
        ⟨MatchType.Literal, 0, 0⟩).length := by
  have hsome : (runOps [MOp.app [1, 2], MOp.dec, MOp.app [3], MOp.dec]).isSome = true := by
    decide
  rcases hrun : runOps [MOp.app [1, 2], MOp.dec, MOp.app [3], MOp.dec] with _ | mf
  · rw [hrun] at hsome
    simp at hsome
  · have hmm : matchesO (some mf) = mf.matches := rfl
    have hm : mf.matches = [⟨MatchType.Literal, 0, 2⟩, ⟨MatchType.Literal, 2, 1⟩] := by
      have h2 : matchesO (runOps [MOp.app [1, 2], MOp.dec, MOp.app [3], MOp.dec]) =
          [⟨MatchType.Literal, 0, 2⟩, ⟨MatchType.Literal, 2, 1⟩] := by decide
      rw [hrun] at h2
      exact h2
    exact c10_positive_lengths _ mf hrun _ (by rw [hmm, hm]; decide)

/-- C7: the chain-walk selection rule. A strictly longer verified match
always wins (first conjunct); among equal verified lengths the candidate
replaces the incumbent exactly under the guard `last < best && last > pos`,
and then the chosen source offset `last - pos` is strictly smaller —
earlier — than the incumbent (second conjunct); when the guard fails the
incumbent is kept (third conjunct). -/
theorem c7_tie_break (mm best len pos last ml : Nat) :
    (mm ≤ ml → len < ml → bestUpdate mm best len pos last ml = (sub64 last pos, ml)) ∧
    (ml = len → last < best → pos < last → mm ≤ ml →
      bestUpdate mm best len pos last ml = (sub64 last pos, ml) ∧ sub64 last pos < best) ∧
    (ml = len → ¬(last < best ∧ pos < last) →
      bestUpdate mm best len pos last ml = (best, len)) := by
  refine ⟨?_, ?_, ?_⟩
  · intro h1 h2
    unfold bestUpdate
    rw [if_pos ⟨h1, Or.inl h2⟩]
  · intro h1 h2 h3 h4
    constructor
    · unfold bestUpdate
      rw [if_pos ⟨h4, Or.inr ⟨h1, h2, h3⟩⟩]
    · have h5 := sub64_le last pos (le_of_lt h3)
      omega
  · intro h1 h2
    unfold bestUpdate
    rw [if_neg]
    rintro ⟨ha, hc | hc⟩
    · omega
    · exact h2 ⟨hc.2.1, hc.2.2⟩

/-- witness for C7 at concrete values. -/
theorem c7_witness :
    bestUpdate 3 9 3 2 6 5 = (sub64 6 2, 5) ∧
      (bestUpdate 3 9 5 2 6 5 = (sub64 6 2, 5) ∧ sub64 6 2 < 9) ∧
      bestUpdate 3 9 5 2 1 5 = (9, 5) :=
  ⟨(c7_tie_break 3 9 3 2 6 5).1 (by decide) (by decide),
   (c7_tie_break 3 9 5 2 6 5).2.1 rfl (by decide) (by decide) (by decide),
   (c7_tie_break 3 9 5 2 1 5).2.2 rfl (by decide)⟩

/-- C8: `append` is guarded by the assert
`data.size() + distance < numeric_limits<Size>::max()`. When the new
total would reach or exceed `2^32 - 1` the whole append is refused (the
assert aborts, nothing is applied); otherwise the symbols are appended
and the chain table is resized to the new buffer length, with the rest of
the state untouched. -/
theorem c8_append_guard (m : Matcher) (xs : List Nat) :
    (2 ^ 32 - 1 ≤ m.data.length + xs.length → m.appendChecked xs = none) ∧
    (m.data.length + xs.length < 2 ^ 32 - 1 →
      m.appendChecked xs = some (m.append xs) ∧
      (m.append xs).data = m.data ++ xs ∧
      (m.append xs).prev.length = (m.append xs).data.length ∧
      (m.append xs).mark = m.mark ∧ (m.append xs).rmatches = m.rmatches ∧
      (m.append xs).head = m.head) := by
  constructor
  · intro h
    unfold Matcher.appendChecked
    rw [if_neg (by omega)]
  · intro h
    refine ⟨?_, rfl, ?_, rfl, rfl, rfl⟩
    · unfold Matcher.appendChecked
      rw [if_pos h]
    · show ((m.prev ++ List.replicate ((m.data ++ xs).length - m.prev.length) 0).take
        (m.data ++ xs).length).length = (m.data ++ xs).length
      simp only [List.length_take, List.length_append, List.length_replicate]
      omega

/-- witness for C8: a small append succeeds and resizes the chain table;
an append that would reach the `uint32` limit is refused. -/
theorem c8_witness :
    (Matcher.mkInit 15).appendChecked [1, 2, 3] =
        some ((Matcher.mkInit 15).append [1, 2, 3]) ∧
      ((Matcher.mkInit 15).append [1, 2, 3]).prev.length = 3 ∧
      ({ Matcher.mkInit 0 with data := List.replicate (2 ^ 32) 0 } : Matcher).appendChecked [] =
        none := by
  have h := (c8_append_guard (Matcher.mkInit 15) [1, 2, 3]).2 (by decide)
  refine ⟨h.1, ?_, ?_⟩
  · rw [h.2.2.1]
    rfl
  · refine (c8_append_guard _ []).1 ?_
    have hM : ({ Matcher.mkInit 0 with data := List.replicate (2 ^ 32) 0 } : Matcher).data.length
        = 2 ^ 32 := by
      show (List.replicate (2 ^ 32) (0 : Nat)).length = 2 ^ 32
      rw [List.length_replicate]
    rw [hM, List.length_nil]
    omega

/-- C9: determinism — the engine is a pure function of its configuration
and input, so identical configuration and input yield identical match
lists (and identical final states). -/
theorem c9_determinism (bits mm mx : Nat) (S1 S2 : List Nat) (h : S1 = S2) :
    (runMatcherCfg bits mm mx S1).matches = (runMatcherCfg bits mm mx S2).matches ∧
      runMatcherCfg bits mm mx S1 = runMatcherCfg bits mm mx S2 := by
  subst h
  exact ⟨rfl, rfl⟩

/-- witness for C9 at a concrete configuration and input. -/
theorem c9_witness :
    (runMatcherCfg 15 3 32 [1, 2, 1, 2]).matches =
      (runMatcherCfg 15 3 32 [1, 2, 1, 2]).matches :=
  (c9_determinism 15 3 32 [1, 2, 1, 2] [1, 2, 1, 2] rfl).1

/-- C1 (bug evidence): on `S = [0, 0, 0]` the engine emits a single
`Copy` whose stored source offset is `4294967295` — the `size_t` guard in
`check_match` underflows at `mark = 0`, `pos = 2`, the comparison loop
reads `data[SIZE_MAX]` (out of bounds in C++; default-valued in this
model), and `best = last - pos` wraps.  Replaying the match list fails:
the copy references data outside the already-produced output, so
`decode(match(S))` is undefined rather than `S`. -/
theorem c1_roundtrip_bug :
    (runMatcher [0, 0, 0]).matches = [⟨MatchType.Copy, 4294967295, 3⟩] ∧
      decode [0, 0, 0] (runMatcher [0, 0, 0]).matches = none := by
  exact ⟨by decide, by decide⟩

/-- C3 (bug evidence): the copy emitted on `[0, 0, 0]` references source
offset `4294967295` at cursor 0 — outside all already-produced data
(forward / out-of-range reference, unresolvable by the replay).
Additionally, on the periodic input `"abcabcabc"` the engine by design
emits `Copy (offset 0, length 6)` at cursor 3, whose source range extends
past the cursor: an overlapping copy, which still replays correctly one
symbol at a time — so the claim's stricter "never extends beyond the
cursor" reading fails even on intended behaviour. -/
theorem c3_copy_validity_bug :
    (runMatcher [0, 0, 0]).matches = [⟨MatchType.Copy, 4294967295, 3⟩] ∧
      copyValidFrom 0 (runMatcher [0, 0, 0]).matches = false ∧
      (runMatcherCfg 4 3 32 [97, 98, 99, 97, 98, 99, 97, 98, 99]).matches =
        [⟨MatchType.Literal, 0, 3⟩, ⟨MatchType.Copy, 0, 6⟩] ∧
      copyValidFrom 0 (runMatcherCfg 4 3 32 [97, 98, 99, 97, 98, 99, 97, 98, 99]).matches =
        false ∧
      decode [97, 98, 99, 97, 98, 99, 97, 98, 99]
          (runMatcherCfg 4 3 32 [97, 98, 99, 97, 98, 99, 97, 98, 99]).matches =
        some [97, 98, 99, 97, 98, 99, 97, 98, 99] := by
  exact ⟨by decide, by decide, by decide, by decide, by decide⟩
